import Mathlib

/-!
Shallow embedding of the youpod synchronization ledger and feed pipeline.

Sources embedded here:
- `src/utils/history.ts` (`HistoryManager`): the TSV-backed download ledger
  (`loadHistorySync`, `isDownloaded`, `getChannelEntries`, `addEntry`,
  `loadHistory`, `addToHistory`).
- `src/index.ts` (`main`): the new-video diff over a fetched listing
  (`filter` on recorded ids, then `slice(0, options.maxVideos || 10)`).
- `src/utils/feed-generator.ts` (`FeedGenerator.generateChannelFeed`): the
  sort-by-date-then-truncate step that selects feed items.

Modelling conventions:
- JavaScript strings and file contents are modelled as lists of bytes
  (`List Nat`, each element a UTF-8 byte).  The delimiters the code splits
  on (tab 9, newline 10) are single bytes that never occur inside a UTF-8
  multi-byte sequence, so splitting the byte list agrees with splitting the
  JS string.
- A JS `Map` is modelled as an association list in insertion order;
  `Map.set` replaces in place or appends, `Map.has`/`Map.get` search by key.
  This matches the insertion-order iteration of `Map.prototype.values`.
- `await fs.appendFile` either appends one line to the backing file or
  fails; the boolean `writeOk` argument of the record operations selects
  which of the two outcomes the environment produced.  The in-memory
  mutation performed before the `await` is kept in both outcomes, exactly
  as in the source, where `this.history.set(...)` precedes the write.
- `number` values flowing through `parseInt`/`String(...)` are modelled as
  `Option Nat`, `none` standing for `NaN` (rendered `"NaN"`, and produced
  when no leading digits exist).  Entries written by this program render a
  nonnegative integer or `NaN`, so the sign branch of `parseInt` is never
  reached and is omitted.
-/

namespace YouPod

/-- JS `Map` as an association list in insertion order. -/
abbrev JsMap (κ ν : Type) := List (κ × ν)

/-- `Map.prototype.set`: replace the value in place if the key is present
(keeping its position, as JS Maps do), otherwise append the new pair. -/
def jsSet {κ ν : Type} [DecidableEq κ] : JsMap κ ν → κ → ν → JsMap κ ν
  | [], k, v => [(k, v)]
  | (k', v') :: t, k, v =>
    if k' = k then (k, v) :: t else (k', v') :: jsSet t k v

/-- `Map.prototype.get`. -/
def jsGet {κ ν : Type} [DecidableEq κ] : JsMap κ ν → κ → Option ν
  | [], _ => none
  | (k', v) :: t, k => if k' = k then some v else jsGet t k

/-- `Map.prototype.has` (this is `HistoryManager.isDownloaded`). -/
def jsHas {κ ν : Type} [DecidableEq κ] (m : JsMap κ ν) (k : κ) : Bool :=
  (jsGet m k).isSome

/-- Well-formedness of the modelled map: one pair per key. -/
def nodupKeys {κ ν : Type} (m : JsMap κ ν) : Prop :=
  (m.map Prod.fst).Nodup

/-- The whitespace bytes stripped by `String.prototype.trim` (the ASCII
ones; the non-ASCII whitespace code points do not occur in the ledger). -/
def isWsNat (b : Nat) : Bool :=
  b == 9 || b == 10 || b == 11 || b == 12 || b == 13 || b == 32

/-- JS `str.trim()`. -/
def jsTrim (l : List Nat) : List Nat :=
  ((l.dropWhile isWsNat).reverse.dropWhile isWsNat).reverse

/-- JS `str.split(sep)` for a one-character separator: the list of
segments between occurrences of `sep` (empty segments included). -/
def jsSplit (sep : Nat) : List Nat → List (List Nat)
  | [] => [[]]
  | c :: t =>
    if c = sep then [] :: jsSplit sep t
    else
      match jsSplit sep t with
      | s :: rest => (c :: s) :: rest
      | [] => [[c]]

/-- JS `arr.join(sep)` for a one-character separator. -/
def jsJoin (sep : Nat) : List (List Nat) → List Nat
  | [] => []
  | [f] => f
  | f :: rest => f ++ sep :: jsJoin sep rest

/-- Does `hay` start with `needle`?  (Helper for `jsIncludes`.) -/
def leadsWith : List Nat → List Nat → Bool
  | _, [] => true
  | [], _ :: _ => false
  | h :: hs, n :: ns => h == n && leadsWith hs ns

/-- JS `hay.includes(needle)`: contiguous substring test. -/
def jsIncludes : List Nat → List Nat → Bool
  | [], needle => needle.isEmpty
  | h :: t, needle => leadsWith (h :: t) needle || jsIncludes t needle

/-- The base64 alphabet: the byte encoding sextet `s` (0 ≤ s < 64). -/
def b64CharOf (s : Nat) : Nat :=
  if s < 26 then 65 + s
  else if s < 52 then 71 + s
  else if s < 62 then s - 4
  else if s = 62 then 43
  else 47

/-- Inverse of `b64CharOf` (0 on bytes outside the alphabet). -/
def b64ValOf (c : Nat) : Nat :=
  if 65 ≤ c ∧ c ≤ 90 then c - 65
  else if 97 ≤ c ∧ c ≤ 122 then c - 71
  else if 48 ≤ c ∧ c ≤ 57 then c + 4
  else if c = 43 then 62
  else if c = 47 then 63
  else 0

/-- `Buffer.from(bytes).toString('base64')`: standard base64 with `=`
padding (byte 61). -/
def b64Encode : List Nat → List Nat
  | b1 :: b2 :: b3 :: t =>
    b64CharOf (b1 / 4) :: b64CharOf (b1 % 4 * 16 + b2 / 16) ::
    b64CharOf (b2 % 16 * 4 + b3 / 64) :: b64CharOf (b3 % 64) :: b64Encode t
  | [b1, b2] => [b64CharOf (b1 / 4), b64CharOf (b1 % 4 * 16 + b2 / 16),
                 b64CharOf (b2 % 16 * 4), 61]
  | [b1] => [b64CharOf (b1 / 4), b64CharOf (b1 % 4 * 16), 61, 61]
  | [] => []

/-- Grouped sextet decoding (padding already stripped). -/
def b64DecodeCore : List Nat → List Nat
  | s1 :: s2 :: s3 :: s4 :: t =>
    (b64ValOf s1 * 4 + b64ValOf s2 / 16) ::
    (b64ValOf s2 % 16 * 16 + b64ValOf s3 / 4) ::
    (b64ValOf s3 % 4 * 64 + b64ValOf s4) :: b64DecodeCore t
  | [s1, s2, s3] => [b64ValOf s1 * 4 + b64ValOf s2 / 16,
                     b64ValOf s2 % 16 * 16 + b64ValOf s3 / 4]
  | [s1, s2] => [b64ValOf s1 * 4 + b64ValOf s2 / 16]
  | _ => []

/-- `Buffer.from(s, 'base64')`: Node ignores the `=` padding characters
and decodes the remaining sextets. -/
def b64Decode (l : List Nat) : List Nat :=
  b64DecodeCore (l.filter (fun c => !(c == 61)))

/-- Decimal digits of `n`, most significant first, as ASCII bytes.  The
first argument is recursion fuel (`n` itself suffices). -/
def decDigitsAux : Nat → Nat → List Nat
  | 0, _ => []
  | fuel + 1, n =>
    if n = 0 then [] else decDigitsAux fuel (n / 10) ++ [n % 10 + 48]

/-- JS `String(x)` for the modelled numbers: decimal digits for an
integer, `"NaN"` (bytes 78 97 78) for `NaN`. -/
def renderSize : Option Nat → List Nat
  | some n => if n = 0 then [48] else decDigitsAux n n
  | none => [78, 97, 78]

/-- JS `parseInt(s, 10)` as reached by the ledger loader: skip leading
whitespace, then read a nonempty run of decimal digits; `NaN` (`none`)
when there is none. -/
def parseSize (l : List Nat) : Option Nat :=
  let l1 := l.dropWhile isWsNat
  let ds := l1.takeWhile (fun c => 48 ≤ c && c ≤ 57)
  if ds.isEmpty then none
  else some (ds.foldl (fun a c => a * 10 + (c - 48)) 0)

/-- The in-memory ledger record (`HistoryEntry` in `history.ts`).  String
fields are byte lists; `fileSize` is a JS number (`none` = `NaN`);
`description` is optional. -/
structure HistoryEntry where
  channelLabel : List Nat
  videoId : List Nat
  title : List Nat
  filePath : List Nat
  fileSize : Option Nat
  format : List Nat
  publishedAt : List Nat
  downloadedAt : List Nat
  description : Option (List Nat)
deriving DecidableEq

/-- The TSV line appended by `addEntry` (history.ts lines 170-179): eight
tab-joined fields, no description column. -/
def addEntryLine (e : HistoryEntry) : List Nat :=
  jsJoin 9 [e.channelLabel, e.videoId, e.title, e.filePath,
            renderSize e.fileSize, e.format, e.publishedAt, e.downloadedAt]

/-- The TSV line appended by `addToHistory` (history.ts lines 297-308):
nine tab-joined fields, the last being the base64-encoded description
(empty when the description is absent or empty, since `''` is falsy). -/
def addToHistoryLine (e : HistoryEntry) : List Nat :=
  jsJoin 9 [e.channelLabel, e.videoId, e.title, e.filePath,
            renderSize e.fileSize, e.format, e.publishedAt, e.downloadedAt,
            match e.description with
            | some d => b64Encode d
            | none => []]

/-- The header line written by `ensureHistoryFileSync` (history.ts lines
58-68): the eight column names channelLabel, videoId, title, filePath,
fileSize, format, publishedAt, downloadedAt joined by tabs, as ASCII
bytes. -/
def headerLine : List Nat :=
  [99, 104, 97, 110, 110, 101, 108, 76, 97, 98, 101, 108, 9,
   118, 105, 100, 101, 111, 73, 100, 9,
   116, 105, 116, 108, 101, 9,
   102, 105, 108, 101, 80, 97, 116, 104, 9,
   102, 105, 108, 101, 83, 105, 122, 101, 9,
   102, 111, 114, 109, 97, 116, 9,
   112, 117, 98, 108, 105, 115, 104, 101, 100, 65, 116, 9,
   100, 111, 119, 110, 108, 111, 97, 100, 101, 100, 65, 116]

/-- Field `i` of a TSV line, as destructured by the loaders.  A field past
the end of the split (JS `undefined`) is modelled as the empty byte string:
both are falsy, which is the only way the loaders inspect short rows. -/
def fieldOf (line : List Nat) (i : Nat) : List Nat :=
  (jsSplit 9 line).getD i []

/-- One line parsed by `loadHistorySync` (history.ts lines 85-117): split
on tabs, destructure nine fields, `parseInt` the size, base64-decode a
nonempty description column. -/
def parseHistLine (line : List Nat) : HistoryEntry :=
  { channelLabel := fieldOf line 0
    videoId := fieldOf line 1
    title := fieldOf line 2
    filePath := fieldOf line 3
    fileSize := parseSize (fieldOf line 4)
    format := fieldOf line 5
    publishedAt := fieldOf line 6
    downloadedAt := fieldOf line 7
    description :=
      let enc := fieldOf line 8
      if enc.isEmpty then none else some (b64Decode enc) }

/-- The body lines seen by both loaders: `content.trim().split('\n')`
minus the header line (index 0). -/
def bodyLines (content : List Nat) : List (List Nat) :=
  (jsSplit 10 (jsTrim content)).drop 1

/-- One iteration of the `loadHistorySync` loop (history.ts lines 81-120):
skip a blank line, otherwise parse it and `map.set` it under its
videoId. -/
def loadStep (m : JsMap (List Nat) HistoryEntry) (line : List Nat) :
    JsMap (List Nat) HistoryEntry :=
  if (jsTrim line).isEmpty then m
  else
    let e := parseHistLine line
    jsSet m e.videoId e

/-- `loadHistorySync` (history.ts lines 75-127): fold the body lines into
the in-memory map, skipping blank lines; `map.set` makes a later line with
the same videoId overwrite an earlier one. -/
def loadHistorySyncModel (content : List Nat) : JsMap (List Nat) HistoryEntry :=
  (bodyLines content).foldl loadStep []

/-- The lighter per-channel record produced by `loadHistory`
(`SimpleHistoryEntry` in `history.ts`, as constructed on lines 226-234). -/
structure SimpleHistoryEntry where
  videoId : List Nat
  title : List Nat
  url : List Nat
  publishDate : List Nat
  downloadDate : List Nat
  filePath : List Nat
  channelLabel : List Nat
deriving DecidableEq

/-- The bytes of `"https://www.youtube.com/watch?v="`. -/
def watchUrlBase : List Nat :=
  [104, 116, 116, 112, 115, 58, 47, 47, 119, 119, 119, 46, 121, 111, 117,
   116, 117, 98, 101, 46, 99, 111, 109, 47, 119, 97, 116, 99, 104, 63,
   118, 61]

/-- The `SimpleHistoryEntry` built from one TSV line by `loadHistory`. -/
def mkSimpleEntry (line : List Nat) : SimpleHistoryEntry :=
  { videoId := fieldOf line 1
    title := fieldOf line 2
    url := watchUrlBase ++ fieldOf line 1
    publishDate := fieldOf line 6
    downloadDate := fieldOf line 7
    filePath := fieldOf line 3
    channelLabel := fieldOf line 0 }

/-- `loadHistory(channelSlug)` (history.ts lines 187-244): keep exactly
the body lines whose `filePath` column contains the slug as a substring
(`filePath.includes(channelSlug)`, line 225).  The file-missing and
exception paths return `[]` and involve no selection logic. -/
def loadHistoryModel (content : List Nat) (channelSlug : List Nat) :
    List SimpleHistoryEntry :=
  if (jsSplit 10 (jsTrim content)).length ≤ 1 then []
  else
    ((jsSplit 10 (jsTrim content)).drop 1).foldl
      (fun acc line =>
        if (jsTrim line).isEmpty then acc
        else if jsIncludes (fieldOf line 3) channelSlug then
          acc ++ [mkSimpleEntry line]
        else acc)
      []

/-- The per-line selection test of `loadHistory`: a non-blank line whose
`filePath` column contains the slug. -/
def selectsLine (channelSlug line : List Nat) : Bool :=
  !(jsTrim line).isEmpty && jsIncludes (fieldOf line 3) channelSlug

/-- The observable state of a `HistoryManager`: the in-memory map plus
the body lines of the backing TSV file (header excluded; `appendFile`
adds one line per successful write). -/
structure LedgerState where
  history : JsMap (List Nat) HistoryEntry
  file : List (List Nat)
deriving DecidableEq

/-- The freshly constructed manager: empty map, empty file body. -/
def emptyLedger : LedgerState := { history := [], file := [] }

/-- `HistoryManager.addEntry` (history.ts lines 148-182).  The caller
supplies the constituents of the entry (the record is assembled on lines
156-165; `filePath` arrives already root-relative, the `path.relative`
computation being pure path arithmetic on the argument).  Line 167 sets
the in-memory map, and only then line 181 awaits the file append; when
the write fails (`writeOk = false`) the map mutation has already
happened and is kept, while the file is unchanged. -/
def addEntry (st : LedgerState) (channelLabel videoId title filePath : List Nat)
    (fileSize : Option Nat) (format publishedAt downloadedAt : List Nat)
    (writeOk : Bool) : LedgerState :=
  let entry : HistoryEntry :=
    { channelLabel := channelLabel, videoId := videoId, title := title
      filePath := filePath, fileSize := fileSize, format := format
      publishedAt := publishedAt, downloadedAt := downloadedAt
      description := none }
  { history := jsSet st.history entry.videoId entry
    file := if writeOk then st.file ++ [addEntryLine entry] else st.file }

/-- The slug-derived label of history.ts line 273:
`charAt(0).toUpperCase()` on the first byte (ASCII uppercase), then the
global dash-to-space replace on the rest (45 becomes 32). -/
def slugLabel (slug : List Nat) : List Nat :=
  match slug with
  | [] => []
  | c :: t =>
    (if 97 ≤ c ∧ c ≤ 122 then c - 32 else c) ::
      t.map (fun b => if b = 45 then 32 else b)

/-- `path.extname(p).replace('.', '')` (history.ts line 270): the bytes
after the last dot of the last path segment; empty when the segment has
no dot or only a leading dot. -/
def extFormat (p : List Nat) : List Nat :=
  let seg := (p.reverse.takeWhile (fun b => !(b == 47))).reverse
  let tl := seg.reverse.takeWhile (fun b => !(b == 46))
  if tl.length < seg.length ∧ tl.length + 1 ≠ seg.length then tl.reverse
  else []

/-- `HistoryManager.addToHistory` (history.ts lines 249-316).  Inputs are
the fields of the incoming `SimpleHistoryEntry` plus the environment's
answers: `relFilePath` (the `path.relative` result of line 258),
`statSize` (the `fs.stat(...).size` of lines 261-267, `0` on stat
failure), and `writeOk` for the `fs.appendFile` of line 310.  The label
falls back to a slug-derived one when the entry's label is absent or
empty (both falsy, line 273).  An already-present videoId only replaces
the in-memory entry (lines 289-291, no file write); a new videoId is set
in the map (line 294) and then the encoded nine-field line is appended
(line 310) — on a failed append the map keeps the new entry, the error
being rethrown only after the `set`. -/
def addToHistory (st : LedgerState) (slug : List Nat)
    (videoId title : List Nat) (_url : List Nat)
    (publishDate downloadDate : List Nat)
    (origFilePath relFilePath : List Nat) (statSize : Nat)
    (labelOpt : Option (List Nat)) (descr : Option (List Nat))
    (writeOk : Bool) : LedgerState :=
  let newEntry : HistoryEntry :=
    { channelLabel :=
        match labelOpt with
        | some (c :: t) => c :: t
        | _ => slugLabel slug
      videoId := videoId, title := title
      filePath := relFilePath
      fileSize := some statSize
      format := extFormat origFilePath
      publishedAt := publishDate
      downloadedAt := downloadDate
      description := descr }
  if jsHas st.history videoId then
    { history := jsSet st.history videoId newEntry, file := st.file }
  else
    { history := jsSet st.history videoId newEntry
      file := if writeOk then st.file ++ [addToHistoryLine newEntry]
              else st.file }

/-- A listing item or a loaded history row as the diff inspects it: only
the `videoId` takes part in `h.videoId === video.videoId`.  Ids are
opaque strings compared for equality only, so an atom (`Nat`) stands for
each distinct id. -/
structure VidRef where
  videoId : Nat
deriving DecidableEq

/-- index.ts line 74: `videos.filter(video => !history.some(h => h.videoId === video.videoId))`. -/
def newVideosOf (history videos : List VidRef) : List VidRef :=
  videos.filter (fun v => !(history.any (fun h => h.videoId == v.videoId)))

/-- JS `arr.slice(0, e)`: with a negative `e`, the end index counts back
from the end of the array (`max(len + e, 0)`). -/
def jsSliceTo {α : Type} (l : List α) (e : Int) : List α :=
  if e < 0 then l.take (l.length - (-e).toNat) else l.take e.toNat

/-- `options.maxVideos || 10` (index.ts line 78): `0` is falsy and falls
back to the default; every other integer is kept (including negatives). -/
def maxVideosOrDefault (m : Int) : Int :=
  if m = 0 then 10 else m

/-- The synchronizer diff, index.ts lines 74-78: filter the listing
against the loaded history, then `slice(0, options.maxVideos || 10)`. -/
def videosToDownload (history videos : List VidRef) (maxVideos : Int) :
    List VidRef :=
  jsSliceTo (newVideosOf history videos) (maxVideosOrDefault maxVideos)

/-- A ledger entry as the two sort sites inspect it: `publishedAt` is
represented by its `new Date(...).getTime()` value (comparing the parsed
ISO-8601 timestamps is order-isomorphic to comparing these numbers), and
`channelLabel` / `videoId` are atoms compared for equality and order. -/
structure SortEntry where
  channelLabel : Nat
  videoId : Nat
  publishedAt : Nat
deriving DecidableEq

/-- Insertion step of the stable descending sort: an element moves past
exactly the entries with a strictly greater timestamp, so it lands before
every entry with an equal or smaller one. -/
def insertByDateDesc (e : SortEntry) : List SortEntry → List SortEntry
  | [] => [e]
  | f :: t =>
    if e.publishedAt < f.publishedAt then f :: insertByDateDesc e t
    else e :: f :: t

/-- `entries.sort((a, b) => new Date(b.publishedAt).getTime() - new Date(a.publishedAt).getTime())`
(history.ts line 142, feed-generator.ts lines 406-408).
`Array.prototype.sort` is stable, and a stable sort under the comparator
"later date first, ties keep input order" is exactly this insertion
sort. -/
def sortByDateDesc (l : List SortEntry) : List SortEntry :=
  l.foldr insertByDateDesc []

/-- `HistoryManager.getChannelEntries` (history.ts lines 139-143):
`Array.from(values)` in map insertion order, filter by channel label,
then the descending date sort. -/
def getChannelEntriesModel (values : List SortEntry) (label : Nat) :
    List SortEntry :=
  sortByDateDesc (values.filter (fun e => e.channelLabel == label))

/-- The item list of `FeedGenerator.generateChannelFeed`
(feed-generator.ts lines 405-411): sort all entries by date descending,
then `slice(0, maxItems)` (`maxItems` defaults to 50 upstream and is a
nonnegative count). -/
def generateChannelFeedItems (entries : List SortEntry) (maxItems : Nat) :
    List SortEntry :=
  (sortByDateDesc entries).take maxItems

/-! ### Association-list map lemmas -/

theorem jsGet_jsSet_self {κ ν : Type} [DecidableEq κ] (m : JsMap κ ν) (k : κ) (v : ν) :
    jsGet (jsSet m k v) k = some v := by
  induction m with
  | nil => simp [jsSet, jsGet]
  | cons p t ih =>
    obtain ⟨k', v'⟩ := p
    by_cases h : k' = k <;> simp [jsSet, jsGet, h, ih]

theorem jsGet_jsSet_ne {κ ν : Type} [DecidableEq κ] (m : JsMap κ ν) (k k' : κ) (v : ν)
    (h : k' ≠ k) : jsGet (jsSet m k v) k' = jsGet m k' := by
  induction m with
  | nil => simp [jsSet, jsGet, Ne.symm h]
  | cons p t ih =>
    obtain ⟨k₀, v₀⟩ := p
    by_cases h0 : k₀ = k
    · subst h0
      have hne : ¬(k₀ = k') := fun hc => h hc.symm
      simp [jsSet, jsGet, hne]
    · simp [jsSet, jsGet, h0, ih]

theorem jsHas_jsSet_self {κ ν : Type} [DecidableEq κ] (m : JsMap κ ν) (k : κ) (v : ν) :
    jsHas (jsSet m k v) k = true := by
  simp [jsHas, jsGet_jsSet_self]

theorem keys_jsSet {κ ν : Type} [DecidableEq κ] (m : JsMap κ ν) (k : κ) (v : ν) :
    (jsSet m k v).map Prod.fst = if k ∈ m.map Prod.fst then m.map Prod.fst
      else m.map Prod.fst ++ [k] := by
  induction m with
  | nil => simp [jsSet]
  | cons p t ih =>
    obtain ⟨k₀, v₀⟩ := p
    by_cases h0 : k₀ = k
    · subst h0
      simp [jsSet]
    · simp only [jsSet, if_neg h0, List.map_cons, ih]
      by_cases hk : k ∈ t.map Prod.fst <;>
        simp [hk, Ne.symm h0, List.mem_cons]

theorem nodupKeys_jsSet {κ ν : Type} [DecidableEq κ] (m : JsMap κ ν) (k : κ) (v : ν)
    (h : nodupKeys m) : nodupKeys (jsSet m k v) := by
  unfold nodupKeys at *
  rw [keys_jsSet]
  by_cases hk : k ∈ m.map Prod.fst
  · simpa [hk]
  · simpa [hk, List.nodup_append] using h

theorem countP_key_eq_zero {κ ν : Type} [DecidableEq κ] (m : JsMap κ ν) (k : κ)
    (h : k ∉ m.map Prod.fst) : m.countP (fun p => p.1 = k) = 0 := by
  induction m with
  | nil => simp
  | cons p t ih =>
    simp only [List.map_cons, List.mem_cons] at h
    push_neg at h
    rw [List.countP_cons]
    simp only [decide_eq_true_eq]
    rw [ih h.2]
    simp [Ne.symm, h.1]

theorem countP_key_jsSet {κ ν : Type} [DecidableEq κ] (m : JsMap κ ν) (k : κ) (v : ν)
    (h : nodupKeys m) : (jsSet m k v).countP (fun p => p.1 = k) = 1 := by
  induction m with
  | nil => simp [jsSet]
  | cons p t ih =>
    obtain ⟨k₀, v₀⟩ := p
    unfold nodupKeys at h
    simp only [List.map_cons, List.nodup_cons] at h
    by_cases h0 : k₀ = k
    · subst h0
      have hz := countP_key_eq_zero t k₀ h.1
      simp [jsSet, List.countP_cons, hz]
    · simp only [jsSet, if_neg h0, List.countP_cons]
      rw [ih h.2]
      simp [h0]

/-! ### Split/join lemmas -/

theorem jsSplit_ne_nil (sep : Nat) (l : List Nat) : jsSplit sep l ≠ [] := by
  cases l with
  | nil => simp [jsSplit]
  | cons c t =>
    by_cases h : c = sep
    · simp [jsSplit, h]
    · simp only [jsSplit, if_neg h]
      cases jsSplit sep t <;> simp

theorem jsSplit_no_sep (sep : Nat) (f : List Nat) (h : sep ∉ f) :
    jsSplit sep f = [f] := by
  induction f with
  | nil => simp [jsSplit]
  | cons c t ih =>
    simp only [List.mem_cons] at h
    push_neg at h
    simp only [jsSplit, if_neg (fun hc : c = sep => h.1 hc.symm)]
    rw [ih h.2]

theorem jsSplit_append_sep (sep : Nat) (f l : List Nat) (h : sep ∉ f) :
    jsSplit sep (f ++ sep :: l) = f :: jsSplit sep l := by
  induction f with
  | nil => simp [jsSplit]
  | cons c t ih =>
    simp only [List.mem_cons] at h
    push_neg at h
    have hc : ¬(c = sep) := fun hcc => h.1 hcc.symm
    simp only [List.cons_append, jsSplit, if_neg hc, List.append_eq]
    rw [ih h.2]

theorem jsSplit_jsJoin (sep : Nat) (fs : List (List Nat)) (hne : fs ≠ [])
    (h : ∀ f ∈ fs, sep ∉ f) : jsSplit sep (jsJoin sep fs) = fs := by
  induction fs with
  | nil => exact absurd rfl hne
  | cons f rest ih =>
    cases rest with
    | nil => simpa [jsJoin] using jsSplit_no_sep sep f (h f (by simp))
    | cons g rest' =>
      have hjoin : jsJoin sep (f :: g :: rest') = f ++ sep :: jsJoin sep (g :: rest') := rfl
      rw [hjoin, jsSplit_append_sep sep f _ (h f (by simp))]
      rw [ih (by simp) (fun x hx => h x (List.mem_cons_of_mem f hx))]

/-! ### Base64 lemmas -/

theorem b64ValOf_b64CharOf : ∀ s, s < 64 → b64ValOf (b64CharOf s) = s := by
  decide

theorem isWsNat_b64CharOf : ∀ s, s < 64 → isWsNat (b64CharOf s) = false := by
  decide

theorem b64CharOf_ne_pad : ∀ s, s < 64 → (b64CharOf s == 61) = false := by
  decide

theorem b64Encode_not_ws (l : List Nat) (h : ∀ b ∈ l, b < 256) :
    ∀ c ∈ b64Encode l, isWsNat c = false := by
  induction l using b64Encode.induct with
  | case1 b1 b2 b3 t ih =>
    have hb1 : b1 < 256 := h b1 (by simp)
    have hb2 : b2 < 256 := h b2 (by simp)
    have hb3 : b3 < 256 := h b3 (by simp)
    intro c hc
    simp only [b64Encode, List.mem_cons] at hc
    rcases hc with rfl | rfl | rfl | rfl | hc
    · exact isWsNat_b64CharOf _ (by omega)
    · exact isWsNat_b64CharOf _ (by omega)
    · exact isWsNat_b64CharOf _ (by omega)
    · exact isWsNat_b64CharOf _ (by omega)
    · exact ih (fun b hb => h b (by simp [hb])) c hc
  | case2 b1 b2 =>
    have hb1 : b1 < 256 := h b1 (by simp)
    have hb2 : b2 < 256 := h b2 (by simp)
    intro c hc
    simp only [b64Encode, List.mem_cons] at hc
    rcases hc with rfl | rfl | rfl | rfl | hc
    · exact isWsNat_b64CharOf _ (by omega)
    · exact isWsNat_b64CharOf _ (by omega)
    · exact isWsNat_b64CharOf _ (by omega)
    · rfl
    · simp at hc
  | case3 b1 =>
    have hb1 : b1 < 256 := h b1 (by simp)
    intro c hc
    simp only [b64Encode, List.mem_cons] at hc
    rcases hc with rfl | rfl | rfl | rfl | hc
    · exact isWsNat_b64CharOf _ (by omega)
    · exact isWsNat_b64CharOf _ (by omega)
    · rfl
    · rfl
    · simp at hc
  | case4 => intro c hc; simp [b64Encode] at hc

theorem b64Encode_ne_nil (l : List Nat) (h : l ≠ []) : b64Encode l ≠ [] := by
  match l with
  | [] => exact absurd rfl h
  | [b1] => simp [b64Encode]
  | [b1, b2] => simp [b64Encode]
  | b1 :: b2 :: b3 :: t => simp [b64Encode]

theorem b64_roundtrip : ∀ l : List Nat, (∀ b ∈ l, b < 256) →
    b64Decode (b64Encode l) = l := by
  have main : ∀ l : List Nat, (∀ b ∈ l, b < 256) →
      b64DecodeCore ((b64Encode l).filter (fun c => !(c == 61))) = l := by
    intro l
    induction l using b64Encode.induct with
    | case1 b1 b2 b3 t ih =>
      intro h
      have hb1 : b1 < 256 := h b1 (by simp)
      have hb2 : b2 < 256 := h b2 (by simp)
      have hb3 : b3 < 256 := h b3 (by simp)
      have hs1 : b1 / 4 < 64 := by omega
      have hs2 : b1 % 4 * 16 + b2 / 16 < 64 := by omega
      have hs3 : b2 % 16 * 4 + b3 / 64 < 64 := by omega
      have hs4 : b3 % 64 < 64 := by omega
      simp only [b64Encode, List.filter_cons, b64CharOf_ne_pad _ hs1,
        b64CharOf_ne_pad _ hs2, b64CharOf_ne_pad _ hs3, b64CharOf_ne_pad _ hs4,
        Bool.not_false, if_pos]
      simp only [b64DecodeCore, b64ValOf_b64CharOf _ hs1,
        b64ValOf_b64CharOf _ hs2, b64ValOf_b64CharOf _ hs3,
        b64ValOf_b64CharOf _ hs4]
      rw [ih (fun b hb => h b (by simp [hb]))]
      simp only [List.cons.injEq, and_true]
      refine ⟨by omega, by omega, by omega⟩
    | case2 b1 b2 =>
      intro h
      have hb1 : b1 < 256 := h b1 (by simp)
      have hb2 : b2 < 256 := h b2 (by simp)
      have hs1 : b1 / 4 < 64 := by omega
      have hs2 : b1 % 4 * 16 + b2 / 16 < 64 := by omega
      have hs3 : b2 % 16 * 4 < 64 := by omega
      simp only [b64Encode, List.filter_cons, b64CharOf_ne_pad _ hs1,
        b64CharOf_ne_pad _ hs2, b64CharOf_ne_pad _ hs3, Bool.not_false,
        if_pos]
      norm_num
      simp only [b64DecodeCore, b64ValOf_b64CharOf _ hs1,
        b64ValOf_b64CharOf _ hs2, b64ValOf_b64CharOf _ hs3]
      simp only [List.cons.injEq, and_true]
      refine ⟨by omega, by omega⟩
    | case3 b1 =>
      intro h
      have hb1 : b1 < 256 := h b1 (by simp)
      have hs1 : b1 / 4 < 64 := by omega
      have hs2 : b1 % 4 * 16 < 64 := by omega
      simp only [b64Encode, List.filter_cons, b64CharOf_ne_pad _ hs1,
        b64CharOf_ne_pad _ hs2, Bool.not_false, if_pos]
      norm_num
      simp only [b64DecodeCore, b64ValOf_b64CharOf _ hs1,
        b64ValOf_b64CharOf _ hs2]
      simp only [List.cons.injEq, and_true]
      omega
    | case4 => intro _; rfl
  intro l h
  exact main l h

/-! ### Decimal rendering lemmas -/

theorem decDigitsAux_digits : ∀ fuel n, ∀ c ∈ decDigitsAux fuel n,
    48 ≤ c ∧ c ≤ 57 := by
  intro fuel
  induction fuel with
  | zero => intro n c hc; simp [decDigitsAux] at hc
  | succ fuel ih =>
    intro n c hc
    by_cases hn : n = 0
    · simp [decDigitsAux, hn] at hc
    · simp only [decDigitsAux, if_neg hn, List.mem_append,
        List.mem_singleton] at hc
      rcases hc with hc | rfl
      · exact ih _ c hc
      · omega

theorem decDigitsAux_foldl : ∀ fuel n acc, n ≤ fuel →
    (decDigitsAux fuel n).foldl (fun a c => a * 10 + (c - 48)) acc =
      acc * 10 ^ (decDigitsAux fuel n).length + n := by
  intro fuel
  induction fuel with
  | zero => intro n acc h; interval_cases n; simp [decDigitsAux]
  | succ fuel ih =>
    intro n acc h
    by_cases hn : n = 0
    · simp [decDigitsAux, hn]
    · have hle : n / 10 ≤ fuel := by omega
      simp only [decDigitsAux, if_neg hn, List.foldl_append, List.foldl_cons,
        List.foldl_nil, List.length_append, List.length_singleton]
      rw [ih _ acc hle]
      have hmod : n % 10 + 48 - 48 = n % 10 := by omega
      rw [hmod, pow_succ]
      have : acc * (10 ^ (decDigitsAux fuel (n / 10)).length * 10) =
          acc * 10 ^ (decDigitsAux fuel (n / 10)).length * 10 := by ring
      rw [this]
      omega

theorem decDigitsAux_ne_nil (fuel n : Nat) (hn : n ≠ 0) (hf : fuel ≠ 0) :
    decDigitsAux fuel n ≠ [] := by
  cases fuel with
  | zero => exact absurd rfl hf
  | succ fuel => simp [decDigitsAux, hn]

theorem renderSize_not_ws (os : Option Nat) :
    ∀ c ∈ renderSize os, isWsNat c = false := by
  intro c hc
  match os with
  | none =>
    simp only [renderSize, List.mem_cons] at hc
    rcases hc with rfl | rfl | rfl | hc
    · rfl
    · rfl
    · rfl
    · simp at hc
  | some n =>
    simp only [renderSize] at hc
    by_cases hn : n = 0
    · simp [hn] at hc
      simp [hc, isWsNat]
    · rw [if_neg hn] at hc
      have := decDigitsAux_digits n n c hc
      simp only [isWsNat, Bool.or_eq_false_iff, beq_eq_false_iff_ne, ne_eq]
      omega

theorem renderSize_no_tab (os : Option Nat) : ∀ c ∈ renderSize os, ¬(c = 9) := by
  intro c hc
  have := renderSize_not_ws os c hc
  intro h
  subst h
  simp [isWsNat] at this

theorem takeWhile_digits (L : List Nat) (h : ∀ c ∈ L, 48 ≤ c ∧ c ≤ 57) :
    L.takeWhile (fun c => 48 ≤ c && c ≤ 57) = L := by
  induction L with
  | nil => rfl
  | cons a t ih =>
    have ha := h a (by simp)
    have hcond : (48 ≤ a && a ≤ 57) = true := by
      simp only [Bool.and_eq_true, decide_eq_true_eq]
      exact ha
    simp only [List.takeWhile_cons, hcond, if_true, List.cons.injEq, true_and]
    exact ih (fun c hc => h c (by simp [hc]))

theorem parseSize_renderSize (os : Option Nat) :
    parseSize (renderSize os) = os := by
  match os with
  | none => rfl
  | some n =>
    by_cases hn : n = 0
    · subst hn; rfl
    · have hdig := decDigitsAux_digits n n
      have hnn := decDigitsAux_ne_nil n n hn hn
      obtain ⟨a, t, hgo⟩ : ∃ a t, decDigitsAux n n = a :: t := by
        cases hgo : decDigitsAux n n with
        | nil => exact absurd hgo hnn
        | cons a t => exact ⟨a, t, rfl⟩
      have hdig' : ∀ c ∈ a :: t, 48 ≤ c ∧ c ≤ 57 := by
        rw [← hgo]; exact hdig
      have ha := hdig' a (by simp)
      have hws : isWsNat a = false := by
        simp only [isWsNat, Bool.or_eq_false_iff, beq_eq_false_iff_ne, ne_eq]
        omega
      have hfold := decDigitsAux_foldl n n 0 (le_refl n)
      rw [hgo] at hfold
      simp only [renderSize, if_neg hn, parseSize, hgo, List.dropWhile_cons,
        hws, Bool.false_eq_true, if_false]
      rw [takeWhile_digits _ hdig']
      simp only [List.isEmpty_cons, Bool.false_eq_true, if_false,
        Option.some.injEq]
      simpa using hfold

/-! ### Trim lemmas -/

theorem jsTrim_keep (a b : Nat) (mid : List Nat)
    (ha : isWsNat a = false) (hb : isWsNat b = false) :
    jsTrim (a :: (mid ++ [b])) = a :: (mid ++ [b]) := by
  unfold jsTrim
  rw [List.dropWhile_cons, ha]
  simp only [Bool.false_eq_true, if_false]
  rw [show (a :: (mid ++ [b])).reverse = b :: (mid.reverse ++ [a]) by simp]
  rw [List.dropWhile_cons, hb]
  simp

theorem jsTrim_ne_nil (l : List Nat) (c : Nat) (hc : c ∈ l)
    (hws : isWsNat c = false) : jsTrim l ≠ [] := by
  intro h
  unfold jsTrim at h
  rw [List.reverse_eq_nil_iff, List.dropWhile_eq_nil_iff] at h
  have h2 : ∀ x ∈ l.dropWhile isWsNat, isWsNat x = true := by
    intro x hx
    exact h x (by simpa using hx)
  have hsplit := List.takeWhile_append_dropWhile (p := isWsNat) (l := l)
  rw [← hsplit] at hc
  rcases List.mem_append.mp hc with h3 | h3
  · have := List.mem_takeWhile_imp h3
    rw [hws] at this
    exact absurd this (by simp)
  · have := h2 c h3
    rw [hws] at this
    exact absurd this (by simp)

/-! ### Substring lemmas -/

theorem leadsWith_iff (nd hay : List Nat) :
    leadsWith hay nd = true ↔ ∃ post, hay = nd ++ post := by
  induction nd generalizing hay with
  | nil =>
    cases hay <;> simp [leadsWith]
  | cons n ns ih =>
    cases hay with
    | nil => simp [leadsWith]
    | cons h hs =>
      simp only [leadsWith, Bool.and_eq_true, beq_iff_eq]
      constructor
      · rintro ⟨rfl, hl⟩
        obtain ⟨post, rfl⟩ := (ih hs).mp hl
        exact ⟨post, rfl⟩
      · rintro ⟨post, heq⟩
        injection heq with h1 h2
        exact ⟨h1, (ih hs).mpr ⟨post, h2⟩⟩

theorem jsIncludes_iff (hay nd : List Nat) :
    jsIncludes hay nd = true ↔ ∃ pre post, hay = pre ++ nd ++ post := by
  induction hay with
  | nil =>
    cases nd with
    | nil => simp [jsIncludes]
    | cons n ns =>
      simp only [jsIncludes, List.isEmpty_cons, Bool.false_eq_true, false_iff]
      rintro ⟨pre, post, heq⟩
      simp at heq
  | cons h t ih =>
    simp only [jsIncludes, Bool.or_eq_true]
    rw [leadsWith_iff, ih]
    constructor
    · rintro (⟨post, hpost⟩ | ⟨pre, post, hpp⟩)
      · exact ⟨[], post, by simpa using hpost⟩
      · exact ⟨h :: pre, post, by simp [hpp]⟩
    · rintro ⟨pre, post, heq⟩
      cases pre with
      | nil =>
        left
        exact ⟨post, by simpa using heq⟩
      | cons p ps =>
        right
        injection heq with h1 h2
        exact ⟨ps, post, h2⟩

theorem jsIncludes_trans {a b c : List Nat} (h1 : jsIncludes b a = true)
    (h2 : jsIncludes c b = true) : jsIncludes c a = true := by
  rw [jsIncludes_iff] at h1 h2 ⊢
  obtain ⟨p1, q1, rfl⟩ := h1
  obtain ⟨p2, q2, rfl⟩ := h2
  exact ⟨p2 ++ p1, q1 ++ q2, by simp⟩

/-! ### Sort lemmas -/

theorem insertByDateDesc_perm (e : SortEntry) (l : List SortEntry) :
    (insertByDateDesc e l).Perm (e :: l) := by
  induction l with
  | nil => exact List.Perm.refl _
  | cons f t ih =>
    by_cases h : e.publishedAt < f.publishedAt
    · simp only [insertByDateDesc, if_pos h]
      exact (ih.cons f).trans (List.Perm.swap e f t)
    · simp only [insertByDateDesc, if_neg h]
      exact List.Perm.refl _

theorem sortByDateDesc_perm (l : List SortEntry) :
    (sortByDateDesc l).Perm l := by
  induction l with
  | nil => exact List.Perm.refl _
  | cons e t ih =>
    unfold sortByDateDesc at *
    simp only [List.foldr_cons]
    exact (insertByDateDesc_perm e _).trans (ih.cons e)

theorem pairwise_insertByDateDesc (e : SortEntry) (l : List SortEntry)
    (h : l.Pairwise (fun a b => b.publishedAt ≤ a.publishedAt)) :
    (insertByDateDesc e l).Pairwise (fun a b => b.publishedAt ≤ a.publishedAt) := by
  induction l with
  | nil => simp [insertByDateDesc]
  | cons f t ih =>
    rcases List.pairwise_cons.mp h with ⟨hf, ht⟩
    by_cases hlt : e.publishedAt < f.publishedAt
    · simp only [insertByDateDesc, if_pos hlt]
      apply List.pairwise_cons.mpr
      refine ⟨?_, ih ht⟩
      intro x hx
      have hx' := (insertByDateDesc_perm e t).mem_iff.mp hx
      rcases List.mem_cons.mp hx' with rfl | hxt
      · omega
      · exact hf x hxt
    · simp only [insertByDateDesc, if_neg hlt]
      apply List.pairwise_cons.mpr
      refine ⟨?_, h⟩
      intro x hx
      rcases List.mem_cons.mp hx with rfl | hxt
      · omega
      · have := hf x hxt
        omega

theorem sortByDateDesc_sorted (l : List SortEntry) :
    (sortByDateDesc l).Pairwise (fun a b => b.publishedAt ≤ a.publishedAt) := by
  induction l with
  | nil => simp [sortByDateDesc]
  | cons e t ih =>
    unfold sortByDateDesc at *
    simp only [List.foldr_cons]
    exact pairwise_insertByDateDesc e _ ih

theorem filter_time_insertByDateDesc (e : SortEntry) (l : List SortEntry) (t0 : Nat) :
    (insertByDateDesc e l).filter (fun x => x.publishedAt == t0) =
      (if e.publishedAt = t0 then [e] else []) ++
        l.filter (fun x => x.publishedAt == t0) := by
  induction l with
  | nil =>
    by_cases h : e.publishedAt = t0 <;>
      simp [insertByDateDesc, List.filter_cons, h]
  | cons f t ih =>
    by_cases hlt : e.publishedAt < f.publishedAt
    · have hfne : e.publishedAt = t0 → ¬(f.publishedAt = t0) := by omega
      simp only [insertByDateDesc, if_pos hlt, List.filter_cons, ih]
      by_cases he : e.publishedAt = t0
      · have : (f.publishedAt == t0) = false := by
          simp [hfne he]
        simp [he, this]
      · by_cases hf : f.publishedAt = t0 <;> simp [he, hf]
    · simp only [insertByDateDesc, if_neg hlt, List.filter_cons]
      by_cases he : e.publishedAt = t0 <;> simp [he]

theorem filter_time_sortByDateDesc (l : List SortEntry) (t0 : Nat) :
    (sortByDateDesc l).filter (fun x => x.publishedAt == t0) =
      l.filter (fun x => x.publishedAt == t0) := by
  induction l with
  | nil => rfl
  | cons e t ih =>
    unfold sortByDateDesc at *
    simp only [List.foldr_cons]
    rw [filter_time_insertByDateDesc, ih, List.filter_cons]
    by_cases he : e.publishedAt = t0 <;> simp [he]

/-! ### Loader fold lemmas -/

theorem jsGet_foldl_loadStep (lines : List (List Nat))
    (m : JsMap (List Nat) HistoryEntry) (id : List Nat) :
    jsGet (lines.foldl loadStep m) id =
      match lines.reverse.find?
          (fun l => !(jsTrim l).isEmpty && (fieldOf l 1 == id)) with
      | some l => some (parseHistLine l)
      | none => jsGet m id := by
  induction lines generalizing m with
  | nil => simp
  | cons l rest ih =>
    simp only [List.foldl_cons, List.reverse_cons, List.find?_append]
    rw [ih]
    cases hfind : rest.reverse.find?
        (fun l => !(jsTrim l).isEmpty && (fieldOf l 1 == id)) with
    | some l' => simp [Option.or]
    | none =>
      by_cases hblank : jsTrim l = []
      · have hp : (!(jsTrim l).isEmpty && (fieldOf l 1 == id)) = false := by
          simp [hblank]
        simp [List.find?, hp, Option.or, loadStep, hblank]
      · have hbe : (jsTrim l).isEmpty = false := by
          simpa [List.isEmpty_iff] using hblank
        by_cases hid : fieldOf l 1 = id
        · have hp : (!(jsTrim l).isEmpty && (fieldOf l 1 == id)) = true := by
            simp [hbe, hid]
          have hkey : (parseHistLine l).videoId = id := hid
          have hid' : (fieldOf l 1 == id) = true := by simp [hid]
          simp [List.find?, hp, hid', Option.or, loadStep, hbe, hkey,
            jsGet_jsSet_self]
        · have hp : (!(jsTrim l).isEmpty && (fieldOf l 1 == id)) = false := by
            simp [hbe, hid]
          have hkey : (parseHistLine l).videoId = fieldOf l 1 := rfl
          have hg := jsGet_jsSet_ne m (fieldOf l 1) id (parseHistLine l)
            (fun hc => hid hc.symm)
          have hid' : (fieldOf l 1 == id) = false := by simp [hid]
          simp [List.find?, hp, hid', Option.or, loadStep, hbe, hkey, hg]

theorem nodupKeys_foldl_loadStep (lines : List (List Nat))
    (m : JsMap (List Nat) HistoryEntry) (h : nodupKeys m) :
    nodupKeys (lines.foldl loadStep m) := by
  induction lines generalizing m with
  | nil => exact h
  | cons l rest ih =>
    simp only [List.foldl_cons]
    apply ih
    unfold loadStep
    by_cases hblank : (jsTrim l).isEmpty
    · simpa [hblank] using h
    · rw [if_neg (by simpa using hblank)]
      exact nodupKeys_jsSet _ _ _ h

/-! ### Claim C3: dedup diff -/

/-- C3: with the ledger containing exactly the ids a and b, the diff over
the listing [a, c, d, b, e] with maxVideos = 2 returns [c, d]: upstream
order is preserved, recorded ids are skipped, and the bound counts kept
items (c and d are the first two kept, with e still unscanned for the
bound). -/
theorem dedup_diff_spec (a b c d e : Nat)
    (hca : c ≠ a) (hcb : c ≠ b) (hda : d ≠ a) (hdb : d ≠ b) :
    videosToDownload [⟨a⟩, ⟨b⟩] [⟨a⟩, ⟨c⟩, ⟨d⟩, ⟨b⟩, ⟨e⟩] 2 =
      [⟨c⟩, ⟨d⟩] := by
  have h1 : (a == c) = false := by simp [Ne.symm hca]
  have h2 : (b == c) = false := by simp [Ne.symm hcb]
  have h3 : (a == d) = false := by simp [Ne.symm hda]
  have h4 : (b == d) = false := by simp [Ne.symm hdb]
  simp only [videosToDownload, newVideosOf, maxVideosOrDefault, jsSliceTo,
    List.filter_cons, List.any_cons, List.any_nil, h1, h2, h3, h4]
  norm_num
  cases hb : (a == e) || (b == e) <;> simp [hb]

/-- Witness for C3 at concrete ids. -/
theorem dedup_diff_spec_witness :
    videosToDownload [⟨0⟩, ⟨1⟩] [⟨0⟩, ⟨2⟩, ⟨3⟩, ⟨1⟩, ⟨4⟩] 2 =
      [⟨2⟩, ⟨3⟩] :=
  dedup_diff_spec 0 1 2 3 4 (by decide) (by decide) (by decide) (by decide)

/-! ### Claim C4: duplicate ids within one diff call -/

/-- C4 counterexample: the diff has no per-call seen-set.  With an empty
ledger and the listing [x, x] (x = 0 twice, unrecorded), the output
contains the id twice, refuting "the diff output contains that id at most
once". -/
theorem diff_duplicate_id_counterexample :
    (videosToDownload [] [⟨0⟩, ⟨0⟩] 2).count ⟨0⟩ = 2 ∧
    ¬((videosToDownload [] [⟨0⟩, ⟨0⟩] 2).count ⟨0⟩ ≤ 1) := by
  decide

/-- C4 amended: the diff keeps every occurrence of an id that is not in
the ledger; when the limit does not truncate, an unrecorded id occurring
k times in the listing occurs exactly k times in the output (a duplicate
upstream id is duplicated, not deduplicated). -/
theorem count_newVideosOf (history : List VidRef) (x : Nat)
    (hx : history.any (fun h => h.videoId == x) = false)
    (videos : List VidRef) :
    (newVideosOf history videos).count ⟨x⟩ = videos.count ⟨x⟩ := by
  induction videos with
  | nil => rfl
  | cons v t ih =>
    unfold newVideosOf at *
    rw [List.filter_cons]
    by_cases hv : v = (⟨x⟩ : VidRef)
    · subst hv
      have hcond : (!(history.any fun h => h.videoId ==
          VidRef.videoId ⟨x⟩)) = true := by
        simpa using hx
      rw [if_pos hcond, List.count_cons, List.count_cons, ih]
    · have hne : ((v == (⟨x⟩ : VidRef)) : Bool) = false := by
        simp [hv]
      cases hrec : (history.any fun h => h.videoId == v.videoId) with
      | true => simp [List.count_cons, hne, ih]
      | false => simp [List.count_cons, hne, ih]

theorem diff_keeps_all_occurrences (history videos : List VidRef) (x : Nat)
    (m : Int) (hx : history.any (fun h => h.videoId == x) = false)
    (hm : 0 ≤ maxVideosOrDefault m)
    (hlen : (videos.length : Int) ≤ maxVideosOrDefault m) :
    (videosToDownload history videos m).count ⟨x⟩ = videos.count ⟨x⟩ := by
  unfold videosToDownload
  have hflen : ((newVideosOf history videos).length : Int) ≤
      maxVideosOrDefault m := by
    have := List.length_filter_le
      (fun v => !(history.any (fun h => h.videoId == v.videoId))) videos
    unfold newVideosOf
    omega
  have hslice : jsSliceTo (newVideosOf history videos)
      (maxVideosOrDefault m) = newVideosOf history videos := by
    unfold jsSliceTo
    rw [if_neg (by omega)]
    apply List.take_of_length_le
    omega
  rw [hslice]
  exact count_newVideosOf history x hx videos

/-- Witness for C4's amended theorem: id 7 twice in a listing of two,
limit large enough, kept twice. -/
theorem diff_keeps_all_occurrences_witness :
    (videosToDownload [⟨1⟩] [⟨7⟩, ⟨7⟩] 5).count ⟨7⟩ =
      ([⟨7⟩, ⟨7⟩] : List VidRef).count ⟨7⟩ :=
  diff_keeps_all_occurrences [⟨1⟩] [⟨7⟩, ⟨7⟩] 7 5 (by decide) (by decide)
    (by decide)

/-! ### Claim C5: non-positive limit -/

/-- C5 counterexample: maxVideos = 0 does not yield an empty result (the
falsy 0 falls back to the default 10), and a negative maxVideos slices
from the end rather than yielding nothing. -/
theorem diff_nonpositive_limit_counterexample :
    videosToDownload [] [⟨0⟩] 0 = [⟨0⟩] ∧
    videosToDownload [] [⟨0⟩, ⟨1⟩] (-1) = [⟨0⟩] ∧
    ¬(videosToDownload [] [⟨0⟩] 0 = []) := by
  decide

/-- C5 amended: maxVideos = 0 is falsy and falls back to the default
bound of 10 (so up to ten items are returned), and a negative maxVideos
-k behaves as the JS slice end index, dropping the last k filtered items;
in particular a zero limit on a nonempty filtered listing is nonempty. -/
theorem diff_zero_limit_defaults (history videos : List VidRef) :
    videosToDownload history videos 0 =
      (newVideosOf history videos).take 10 ∧
    (∀ k : Nat, videosToDownload history videos (-(k + 1 : Nat) : Int) =
      (newVideosOf history videos).take
        ((newVideosOf history videos).length - (k + 1))) ∧
    (newVideosOf history videos ≠ [] →
      videosToDownload history videos 0 ≠ []) := by
  have h0 : videosToDownload history videos 0 =
      (newVideosOf history videos).take 10 := by
    unfold videosToDownload maxVideosOrDefault jsSliceTo
    rw [if_pos rfl, if_neg (by decide)]
    rfl
  refine ⟨h0, ?_, ?_⟩
  · intro k
    have hmd : maxVideosOrDefault (-(k + 1 : Nat) : Int) =
        (-(k + 1 : Nat) : Int) := by
      unfold maxVideosOrDefault
      rw [if_neg (by omega)]
    unfold videosToDownload jsSliceTo
    rw [hmd, if_pos (by omega)]
    congr 1
  · intro hne
    rw [h0]
    cases hl : newVideosOf history videos with
    | nil => exact absurd hl hne
    | cons a t => simp

/-- Witness for C5's amended theorem at a concrete nonempty listing. -/
theorem diff_zero_limit_defaults_witness :
    newVideosOf [] [⟨5⟩] ≠ [] ∧ videosToDownload [] [⟨5⟩] 0 ≠ [] :=
  ⟨by decide, (diff_zero_limit_defaults [] [⟨5⟩]).2.2 (by decide)⟩

/-! ### Claim C6: tie ordering -/

/-- C6 counterexample: two entries with the same publishedAt timestamp
are returned in map-insertion order, not videoId-ascending order: with
values inserted as [videoId 1, videoId 0] (equal dates, same channel),
`getChannelEntries` returns videoIds [1, 0]; with the opposite insertion
order it returns [0, 1] — so the relative order depends on storage order
and is not itemId ascending.  The feed generator's sort behaves the same
way. -/
theorem tie_order_counterexample :
    (getChannelEntriesModel [⟨0, 1, 100⟩, ⟨0, 0, 100⟩] 0).map
        SortEntry.videoId = [1, 0] ∧
    (getChannelEntriesModel [⟨0, 0, 100⟩, ⟨0, 1, 100⟩] 0).map
        SortEntry.videoId = [0, 1] ∧
    (generateChannelFeedItems [⟨0, 1, 100⟩, ⟨0, 0, 100⟩] 50).map
        SortEntry.videoId = [1, 0] ∧
    ¬(getChannelEntriesModel [⟨0, 1, 100⟩, ⟨0, 0, 100⟩] 0).map
        SortEntry.videoId = [0, 1] := by
  decide

/-- C6 amended: both sorts compare only publishedAt and are stable, so
entries with identical publishedAt keep their relative input order (the
map's insertion order for `getChannelEntries`, the entry-list order for
the feed build); the tie order is deterministic only for a fixed storage
order and is not videoId-ascending. -/
theorem tie_order_stable (values entries : List SortEntry) (label t0 : Nat) :
    (getChannelEntriesModel values label).filter
        (fun e => e.publishedAt == t0) =
      (values.filter (fun e => e.channelLabel == label)).filter
        (fun e => e.publishedAt == t0) ∧
    (sortByDateDesc entries).filter (fun e => e.publishedAt == t0) =
      entries.filter (fun e => e.publishedAt == t0) := by
  exact ⟨filter_time_sortByDateDesc _ t0, filter_time_sortByDateDesc _ t0⟩

/-! ### Claim C7: truncation after sorting -/

/-- C7: the feed build sorts all entries by publishedAt descending and
only then truncates: the item list is a prefix of a date-sorted
permutation of all entries, and every kept entry has a publishedAt at
least as recent as every dropped entry — so with 5 entries and
maxItems = 3 the three most recent are kept, never the first three in
storage order. -/
theorem truncation_after_sorting (entries : List SortEntry) (maxItems : Nat) :
    (sortByDateDesc entries).Perm entries ∧
    (sortByDateDesc entries).Pairwise
      (fun a b => b.publishedAt ≤ a.publishedAt) ∧
    generateChannelFeedItems entries maxItems ++
        (sortByDateDesc entries).drop maxItems = sortByDateDesc entries ∧
    ∀ e1 ∈ generateChannelFeedItems entries maxItems,
      ∀ e2 ∈ (sortByDateDesc entries).drop maxItems,
        e2.publishedAt ≤ e1.publishedAt := by
  refine ⟨sortByDateDesc_perm _, sortByDateDesc_sorted _,
    List.take_append_drop _ _, ?_⟩
  have hpw := sortByDateDesc_sorted entries
  rw [← List.take_append_drop maxItems (sortByDateDesc entries)] at hpw
  have hsep := (List.pairwise_append.mp hpw).2.2
  intro e1 h1 e2 h2
  exact hsep e1 h1 e2 h2

/-! ### Claim C9: last-wins load -/

/-- C9: after loading, the in-memory map holds at most one entry per
videoId (its keys are duplicate-free), and the entry found for an id is
the parse of the last non-blank body line carrying that id in file order
(the first match on the reversed line list) — so duplicated on-disk
records never yield duplicated in-memory entries, later lines winning. -/
theorem load_last_wins (content id : List Nat) :
    nodupKeys (loadHistorySyncModel content) ∧
    jsGet (loadHistorySyncModel content) id =
      ((bodyLines content).reverse.find?
        (fun l => !(jsTrim l).isEmpty && (fieldOf l 1 == id))).map
        parseHistLine := by
  constructor
  · exact nodupKeys_foldl_loadStep _ _ (by simp [nodupKeys])
  · rw [loadHistorySyncModel, jsGet_foldl_loadStep]
    cases hf : (bodyLines content).reverse.find?
        (fun l => !(jsTrim l).isEmpty && (fieldOf l 1 == id)) with
    | some l => simp
    | none => simp [jsGet]

/-! ### Claim C10: substring-based source filtering -/

theorem foldl_select_append (slug : List Nat) (lines : List (List Nat))
    (acc : List SimpleHistoryEntry) :
    lines.foldl
      (fun acc line =>
        if (jsTrim line).isEmpty then acc
        else if jsIncludes (fieldOf line 3) slug then
          acc ++ [mkSimpleEntry line]
        else acc)
      acc
    = acc ++ (lines.filter (selectsLine slug)).map mkSimpleEntry := by
  induction lines generalizing acc with
  | nil => simp
  | cons l rest ih =>
    rw [List.foldl_cons]
    by_cases hb : (jsTrim l).isEmpty
    · have hs : selectsLine slug l = false := by simp [selectsLine, hb]
      rw [if_pos hb, List.filter_cons_of_neg (by simp [hs]), ih]
    · by_cases hs : jsIncludes (fieldOf l 3) slug
      · have hsel : selectsLine slug l = true := by
          simp [selectsLine, hb, hs]
        rw [if_neg hb, if_pos hs,
          List.filter_cons_of_pos (by simp [hsel]), ih]
        simp
      · have hsel : selectsLine slug l = false := by
          simp [selectsLine, hb, hs]
        rw [if_neg hb, if_neg hs,
          List.filter_cons_of_neg (by simp [hsel]), ih]

/-- C10: `loadHistory(channelSlug)` selects exactly the non-blank body
lines whose filePath column contains the slug as a substring (not a
source-id equality test); consequently, when slug s1 occurs inside slug
s2, every entry returned for s2 is also returned for s1 (the s2 result
is a sublist of the s1 result), so the shorter slug also picks up the
other source's entries. -/
theorem loadHistory_substring_scope (content s1 s2 : List Nat)
    (h : jsIncludes s2 s1 = true) :
    loadHistoryModel content s1 =
      ((bodyLines content).filter (selectsLine s1)).map mkSimpleEntry ∧
    List.Sublist (loadHistoryModel content s2)
      (loadHistoryModel content s1) := by
  have hchar : ∀ s : List Nat, loadHistoryModel content s =
      ((bodyLines content).filter (selectsLine s)).map mkSimpleEntry := by
    intro s
    unfold loadHistoryModel
    by_cases hlen : (jsSplit 10 (jsTrim content)).length ≤ 1
    · rw [if_pos hlen]
      unfold bodyLines
      rw [List.drop_eq_nil_of_le hlen]
      rfl
    · rw [if_neg hlen]
      exact foldl_select_append s _ []
  refine ⟨hchar s1, ?_⟩
  rw [hchar s1, hchar s2]
  apply List.Sublist.map
  apply List.monotone_filter_right
  intro line hsel
  simp only [selectsLine, Bool.and_eq_true] at hsel ⊢
  exact ⟨hsel.1, jsIncludes_trans h hsel.2⟩

/-- Witness for C10: a one-line ledger whose filePath is "ab"; slug "a"
is contained in slug "ab", and the load for "a" includes the "ab" line's
entry. -/
theorem loadHistory_substring_scope_witness :
    loadHistoryModel
        ([104] ++ 10 ::
          [65, 9, 118, 9, 84, 9, 97, 98, 9, 49, 9, 109, 9, 112, 9, 113])
        [97] =
      ((bodyLines
        ([104] ++ 10 ::
          [65, 9, 118, 9, 84, 9, 97, 98, 9, 49, 9, 109, 9, 112, 9, 113])).filter
        (selectsLine [97])).map mkSimpleEntry ∧
    List.Sublist
      (loadHistoryModel
        ([104] ++ 10 ::
          [65, 9, 118, 9, 84, 9, 97, 98, 9, 49, 9, 109, 9, 112, 9, 113])
        [97, 98])
      (loadHistoryModel
        ([104] ++ 10 ::
          [65, 9, 118, 9, 84, 9, 97, 98, 9, 49, 9, 109, 9, 112, 9, 113])
        [97]) :=
  loadHistory_substring_scope _ [97] [97, 98] (by decide)

/-! ### Claim C8: escaping round-trip -/

theorem mem_jsJoin (sep : Nat) (fs : List (List Nat)) (b : Nat) :
    b ∈ jsJoin sep fs → b = sep ∨ ∃ f ∈ fs, b ∈ f := by
  induction fs with
  | nil => intro hb; simp [jsJoin] at hb
  | cons f rest ih =>
    intro hb
    cases rest with
    | nil =>
      simp only [jsJoin] at hb
      exact Or.inr ⟨f, by simp, hb⟩
    | cons g rest' =>
      have hun : jsJoin sep (f :: g :: rest') =
          f ++ sep :: jsJoin sep (g :: rest') := rfl
      rw [hun] at hb
      rcases List.mem_append.mp hb with h | h
      · exact Or.inr ⟨f, by simp, h⟩
      · rcases List.mem_cons.mp h with rfl | h
        · exact Or.inl rfl
        · rcases ih h with h' | ⟨f', hf', hbf⟩
          · exact Or.inl h'
          · exact Or.inr ⟨f', by simp [List.mem_cons.mp hf'], hbf⟩

theorem jsJoin_ends (sep : Nat) (fs : List (List Nat)) (g : List Nat) :
    ∃ A, jsJoin sep (fs ++ [g]) = A ++ g := by
  induction fs with
  | nil => exact ⟨[], rfl⟩
  | cons f rest ih =>
    obtain ⟨A, hA⟩ := ih
    cases hr : rest ++ [g] with
    | nil => exact absurd hr (by simp)
    | cons x xs =>
      refine ⟨f ++ sep :: A, ?_⟩
      have hun : jsJoin sep (f :: (rest ++ [g])) =
          f ++ sep :: jsJoin sep (rest ++ [g]) := by
        rw [hr]
        rfl
      rw [List.cons_append, hun, hA]
      simp

/-- C8: writing an entry through `addToHistory` (whose description is
base64-encoded into the ninth column) and parsing it back through the
`loadHistorySync` path recovers the identical entry — in particular a
non-empty description containing the tab delimiter, a newline, and
non-ASCII bytes survives unchanged, and the encoded column never breaks
the tab/newline-delimited format of the other fields (they all parse
back unchanged as well).  The other fields must themselves be free of
the delimiters, which the code guarantees for its own writes. -/
theorem description_roundtrip (e : HistoryEntry) (d : List Nat)
    (hdesc : e.description = some d) (hdne : d ≠ [])
    (hdbytes : ∀ b ∈ d, b < 256)
    (hfields : ∀ f ∈ [e.channelLabel, e.videoId, e.title, e.filePath,
        e.format, e.publishedAt, e.downloadedAt],
      ∀ b ∈ f, ¬(b = 9) ∧ ¬(b = 10)) :
    parseHistLine (addToHistoryLine e) = e ∧
    loadHistorySyncModel (headerLine ++ 10 :: addToHistoryLine e) =
      [(e.videoId, e)] := by
  have hjoin : addToHistoryLine e =
      jsJoin 9 [e.channelLabel, e.videoId, e.title, e.filePath,
        renderSize e.fileSize, e.format, e.publishedAt, e.downloadedAt,
        b64Encode d] := by
    unfold addToHistoryLine
    rw [hdesc]
  have henc_ws : ∀ c ∈ b64Encode d, isWsNat c = false :=
    b64Encode_not_ws d hdbytes
  have hencne : b64Encode d ≠ [] := b64Encode_ne_nil d hdne
  have htabfree : ∀ f ∈ [e.channelLabel, e.videoId, e.title, e.filePath,
      renderSize e.fileSize, e.format, e.publishedAt, e.downloadedAt,
      b64Encode d], (9 : Nat) ∉ f := by
    intro f hf
    simp only [List.mem_cons, List.not_mem_nil, or_false] at hf
    rcases hf with rfl | rfl | rfl | rfl | rfl | rfl | rfl | rfl | rfl
    · exact fun h9 => (hfields e.channelLabel (by simp) 9 h9).1 rfl
    · exact fun h9 => (hfields e.videoId (by simp) 9 h9).1 rfl
    · exact fun h9 => (hfields e.title (by simp) 9 h9).1 rfl
    · exact fun h9 => (hfields e.filePath (by simp) 9 h9).1 rfl
    · exact fun h9 => renderSize_no_tab e.fileSize 9 h9 rfl
    · exact fun h9 => (hfields e.format (by simp) 9 h9).1 rfl
    · exact fun h9 => (hfields e.publishedAt (by simp) 9 h9).1 rfl
    · exact fun h9 => (hfields e.downloadedAt (by simp) 9 h9).1 rfl
    · intro h9
      have := henc_ws 9 h9
      simp [isWsNat] at this
  have hsplit : jsSplit 9 (addToHistoryLine e) =
      [e.channelLabel, e.videoId, e.title, e.filePath,
       renderSize e.fileSize, e.format, e.publishedAt, e.downloadedAt,
       b64Encode d] := by
    rw [hjoin]
    exact jsSplit_jsJoin 9 _ (by simp) htabfree
  have hie : (b64Encode d).isEmpty = false := by
    cases hs : b64Encode d with
    | nil => exact absurd hs hencne
    | cons a t => rfl
  have hparse : parseHistLine (addToHistoryLine e) = e := by
    unfold parseHistLine fieldOf
    rw [hsplit]
    simp only [List.getD_cons_zero, List.getD_cons_succ]
    rw [parseSize_renderSize, hie]
    simp only [Bool.false_eq_true, if_false]
    rw [b64_roundtrip d hdbytes, ← hdesc]
  refine ⟨hparse, ?_⟩
  obtain ⟨ys, y, hy⟩ : ∃ ys y, b64Encode d = ys ++ [y] := by
    rcases List.eq_nil_or_concat (b64Encode d) with h | ⟨ys, y, h⟩
    · exact absurd h hencne
    · exact ⟨ys, y, by rw [h, List.concat_eq_append]⟩
  have hyws : isWsNat y = false := henc_ws y (by rw [hy]; simp)
  obtain ⟨A, hA⟩ : ∃ A, addToHistoryLine e = A ++ [y] := by
    obtain ⟨A0, hA0⟩ := jsJoin_ends 9
      [e.channelLabel, e.videoId, e.title, e.filePath,
       renderSize e.fileSize, e.format, e.publishedAt, e.downloadedAt]
      (b64Encode d)
    refine ⟨A0 ++ ys, ?_⟩
    rw [hjoin]
    have hfl : [e.channelLabel, e.videoId, e.title, e.filePath,
        renderSize e.fileSize, e.format, e.publishedAt, e.downloadedAt,
        b64Encode d] =
      [e.channelLabel, e.videoId, e.title, e.filePath,
        renderSize e.fileSize, e.format, e.publishedAt, e.downloadedAt] ++
        [b64Encode d] := rfl
    rw [hfl, hA0, hy]
    simp
  obtain ⟨t1, ht1⟩ : ∃ t1, headerLine = 99 :: t1 := ⟨_, rfl⟩
  have hshape : headerLine ++ 10 :: addToHistoryLine e =
      99 :: ((t1 ++ 10 :: A) ++ [y]) := by
    rw [ht1, hA]
    simp
  have htrim : jsTrim (headerLine ++ 10 :: addToHistoryLine e) =
      headerLine ++ 10 :: addToHistoryLine e := by
    rw [hshape]
    exact jsTrim_keep 99 y _ (by decide) hyws
  have hno10hdr : (10 : Nat) ∉ headerLine := by decide
  have hno10L : (10 : Nat) ∉ addToHistoryLine e := by
    intro h10
    rcases mem_jsJoin 9 _ 10 (hjoin ▸ h10) with h | ⟨f, hf, h10f⟩
    · simp at h
    · simp only [List.mem_cons, List.not_mem_nil, or_false] at hf
      rcases hf with rfl | rfl | rfl | rfl | rfl | rfl | rfl | rfl | rfl
      · exact (hfields e.channelLabel (by simp) 10 h10f).2 rfl
      · exact (hfields e.videoId (by simp) 10 h10f).2 rfl
      · exact (hfields e.title (by simp) 10 h10f).2 rfl
      · exact (hfields e.filePath (by simp) 10 h10f).2 rfl
      · have := renderSize_not_ws e.fileSize 10 h10f
        simp [isWsNat] at this
      · exact (hfields e.format (by simp) 10 h10f).2 rfl
      · exact (hfields e.publishedAt (by simp) 10 h10f).2 rfl
      · exact (hfields e.downloadedAt (by simp) 10 h10f).2 rfl
      · have := henc_ws 10 h10f
        simp [isWsNat] at this
  have hsplit10 : jsSplit 10 (headerLine ++ 10 :: addToHistoryLine e) =
      [headerLine, addToHistoryLine e] := by
    rw [jsSplit_append_sep 10 headerLine _ hno10hdr,
      jsSplit_no_sep 10 _ hno10L]
  have hLtrim_ne : jsTrim (addToHistoryLine e) ≠ [] :=
    jsTrim_ne_nil _ y (by rw [hA]; simp) hyws
  have hLempty : (jsTrim (addToHistoryLine e)).isEmpty = false := by
    simpa [List.isEmpty_iff] using hLtrim_ne
  unfold loadHistorySyncModel bodyLines
  rw [htrim, hsplit10]
  simp only [List.drop_succ_cons, List.drop_zero, List.foldl_cons,
    List.foldl_nil]
  simp only [loadStep, hLempty, Bool.false_eq_true, if_false]
  rw [hparse]
  rfl

/-- Witness for C8: an entry whose description holds the UTF-8 bytes of
a non-ASCII character followed by a tab and a newline; the write/read
cycle reproduces it exactly. -/
theorem description_roundtrip_witness :
    parseHistLine (addToHistoryLine
      { channelLabel := [76], videoId := [118, 49], title := [84]
        filePath := [100, 47, 102, 46, 109, 112, 51], fileSize := none
        format := [109, 112, 51], publishedAt := [112]
        downloadedAt := [113], description := some [226, 151, 137, 9, 10] }) =
      { channelLabel := [76], videoId := [118, 49], title := [84]
        filePath := [100, 47, 102, 46, 109, 112, 51], fileSize := none
        format := [109, 112, 51], publishedAt := [112]
        downloadedAt := [113],
        description := some [226, 151, 137, 9, 10] } ∧
    loadHistorySyncModel (headerLine ++ 10 :: addToHistoryLine
      { channelLabel := [76], videoId := [118, 49], title := [84]
        filePath := [100, 47, 102, 46, 109, 112, 51], fileSize := none
        format := [109, 112, 51], publishedAt := [112]
        downloadedAt := [113],
        description := some [226, 151, 137, 9, 10] }) =
      [([118, 49],
        { channelLabel := [76], videoId := [118, 49], title := [84]
          filePath := [100, 47, 102, 46, 109, 112, 51], fileSize := none
          format := [109, 112, 51], publishedAt := [112]
          downloadedAt := [113],
          description := some [226, 151, 137, 9, 10] })] :=
  description_roundtrip _ [226, 151, 137, 9, 10] (by decide) (by decide)
    (by decide) (by decide)

/-! ### Claim C1: idempotent record -/

/-- C1 counterexample: recording an id that is already present through
`addEntry` appends a second record line for that id to the backing file
(the method has no presence check and always appends), so the store does
not keep exactly one record per id: after two `addEntry` calls with the
same videoId the file carries two records for it.  (The in-memory map
still holds one entry — see the amended theorem.) -/
theorem addEntry_duplicate_record_counterexample :
    ((addEntry (addEntry emptyLedger [65] [118] [84] [112] (some 3) [109]
        [80] [81] true) [65] [118] [84] [112] (some 3) [109] [80] [81]
        true).file.countP (fun l => fieldOf l 1 == [118])) = 2 ∧
    ¬(((addEntry (addEntry emptyLedger [65] [118] [84] [112] (some 3)
        [109] [80] [81] true) [65] [118] [84] [112] (some 3) [109] [80]
        [81] true).file.countP (fun l => fieldOf l 1 == [118])) = 1) := by
  decide

/-- C1 amended: recording is idempotent on the in-memory map — after
`addToHistory` or `addEntry` the map has duplicate-free keys, exactly one
entry for the recorded videoId, and `has(id)` is true; `addToHistory`
appends nothing to the file when the id was already present (pure
in-memory replace), but `addEntry` appends one record line on every
successful write, so the backing file can accumulate duplicate records
for an id (deduplicated again on reload by the last-wins load). -/
theorem record_idempotent_in_memory (st : LedgerState)
    (slug videoId title url pub dl orig rel : List Nat) (size : Nat)
    (lbl descr : Option (List Nat))
    (cl ti fp : List Nat) (fs : Option Nat) (fm pa da : List Nat)
    (w1 w2 : Bool) (h : nodupKeys st.history) :
    (nodupKeys (addToHistory st slug videoId title url pub dl orig rel
        size lbl descr w1).history ∧
      (addToHistory st slug videoId title url pub dl orig rel size lbl
        descr w1).history.countP (fun p => p.1 = videoId) = 1 ∧
      jsHas (addToHistory st slug videoId title url pub dl orig rel size
        lbl descr w1).history videoId = true ∧
      (jsHas st.history videoId = true →
        (addToHistory st slug videoId title url pub dl orig rel size lbl
          descr w1).file = st.file)) ∧
    (nodupKeys (addEntry st cl videoId ti fp fs fm pa da w2).history ∧
      (addEntry st cl videoId ti fp fs fm pa da
        w2).history.countP (fun p => p.1 = videoId) = 1 ∧
      jsHas (addEntry st cl videoId ti fp fs fm pa da w2).history
        videoId = true ∧
      (addEntry st cl videoId ti fp fs fm pa da w2).file =
        st.file ++ (if w2 then
          [addEntryLine
            { channelLabel := cl, videoId := videoId, title := ti
              filePath := fp, fileSize := fs, format := fm
              publishedAt := pa, downloadedAt := da
              description := none }]
          else [])) := by
  constructor
  · by_cases hhas : jsHas st.history videoId
    · refine ⟨?_, ?_, ?_, ?_⟩ <;>
        simp only [addToHistory, hhas, if_true] <;>
        first
          | exact nodupKeys_jsSet _ _ _ h
          | exact countP_key_jsSet _ _ _ h
          | exact jsHas_jsSet_self _ _ _
          | trivial
    · refine ⟨?_, ?_, ?_, ?_⟩ <;>
        simp only [addToHistory, hhas, Bool.false_eq_true, if_false] <;>
        first
          | exact nodupKeys_jsSet _ _ _ h
          | exact countP_key_jsSet _ _ _ h
          | exact jsHas_jsSet_self _ _ _
          | (intro hc; exact hc.elim)
  · refine ⟨nodupKeys_jsSet _ _ _ h, countP_key_jsSet _ _ _ h,
      jsHas_jsSet_self _ _ _, ?_⟩
    cases w2 <;> simp [addEntry]

/-- Witness for C1's amended theorem at a concrete one-entry state
(id 118 already recorded by a prior `addEntry`). -/
theorem record_idempotent_in_memory_witness :
    nodupKeys (addToHistory (addEntry emptyLedger [65] [118] [84] [112]
      (some 3) [109] [80] [81] true) [97] [118] [84] [85] [80] [81]
      [102] [103] 0 none none true).history ∧
    jsHas (addEntry (addEntry emptyLedger [65] [118] [84] [112] (some 3)
      [109] [80] [81] true) [65] [118] [84] [112] (some 3) [109] [80]
      [81] true).history [118] = true :=
  ⟨(record_idempotent_in_memory (addEntry emptyLedger [65] [118] [84]
      [112] (some 3) [109] [80] [81] true) [97] [118] [84] [85] [80]
      [81] [102] [103] 0 none none [65] [84] [112] (some 3) [109] [80]
      [81] true true (by unfold nodupKeys; decide)).1.1,
   (record_idempotent_in_memory (addEntry emptyLedger [65] [118] [84]
      [112] (some 3) [109] [80] [81] true) [97] [118] [84] [85] [80]
      [81] [102] [103] 0 none none [65] [84] [112] (some 3) [109] [80]
      [81] true true (by unfold nodupKeys; decide)).2.2.2.1⟩

/-! ### Claim C2: fail-closed recordEntry -/

/-- C2 counterexample: the in-memory map is mutated even when the file
append fails.  Starting from the empty ledger and recording id 118 via
`addEntry` with a failing write, `has(118)` becomes true although it was
false before the call and the file is unchanged — the map did not stay
"exactly as it was"; the same holds for `addToHistory` on a new id. -/
theorem failed_write_mutates_map_counterexample :
    jsHas emptyLedger.history [118] = false ∧
    jsHas (addEntry emptyLedger [65] [118] [84] [112] (some 3) [109] [80]
      [81] false).history [118] = true ∧
    (addEntry emptyLedger [65] [118] [84] [112] (some 3) [109] [80] [81]
      false).file = emptyLedger.file ∧
    jsHas (addToHistory emptyLedger [97] [119] [84] [85] [80] [81] [102]
      [103] 0 none none false).history [119] = true ∧
    (addToHistory emptyLedger [97] [119] [84] [85] [80] [81] [102] [103]
      0 none none false).file = emptyLedger.file := by
  decide

/-- C2 amended: both record operations set the in-memory map before
awaiting the file append, and a failed append is not rolled back: after
a failed write the new entry is present in memory (`has` is true) while
the file is unchanged, so memory diverges from disk until the next
reload. -/
theorem failed_write_leaves_entry_in_memory (st : LedgerState)
    (cl vid ti fp : List Nat) (fs : Option Nat) (fm pa da : List Nat)
    (slug ti2 url pub dl orig rel : List Nat) (size : Nat)
    (lbl descr : Option (List Nat)) :
    jsHas (addEntry st cl vid ti fp fs fm pa da false).history vid =
      true ∧
    (addEntry st cl vid ti fp fs fm pa da false).file = st.file ∧
    (jsHas st.history vid = false →
      jsHas (addToHistory st slug vid ti2 url pub dl orig rel size lbl
        descr false).history vid = true ∧
      (addToHistory st slug vid ti2 url pub dl orig rel size lbl descr
        false).file = st.file) := by
  refine ⟨jsHas_jsSet_self _ _ _, by simp [addEntry], ?_⟩
  intro hnew
  constructor
  · simp only [addToHistory, hnew, Bool.false_eq_true, if_false]
    exact jsHas_jsSet_self _ _ _
  · simp [addToHistory, hnew]

/-- Witness for C2's amended theorem on the empty ledger. -/
theorem failed_write_leaves_entry_in_memory_witness :
    jsHas (addEntry emptyLedger [65] [118] [84] [112] (some 3) [109] [80]
      [81] false).history [118] = true ∧
    jsHas (addToHistory emptyLedger [97] [118] [84] [85] [80] [81] [102]
      [103] 0 none none false).history [118] = true :=
  ⟨(failed_write_leaves_entry_in_memory emptyLedger [65] [118] [84] [112]
      (some 3) [109] [80] [81] [97] [84] [85] [80] [81] [102] [103] 0
      none none).1,
   ((failed_write_leaves_entry_in_memory emptyLedger [65] [118] [84]
      [112] (some 3) [109] [80] [81] [97] [84] [85] [80] [81] [102]
      [103] 0 none none).2.2 (by decide)).1⟩

end YouPod
